import Mathlib

/-!
Shallow embedding of the ExtractHar extraction pipeline (src/src/main.rs).

The program reads a HAR archive, filters entries by a fixed content-type
table, resolves an output destination for each extractable entry from its
URL and the output-layout flags, base64-decodes the payload and writes the
bytes.  Machine state that matters to the specification (the tally of
processed entries and the sequence of written files) is made explicit; the
process-aborting `unwrap`s of the source are modelled as run-terminating
errors.
-/

namespace ExtractHar

/-- One insertion into the content-type table, modelling `HashMap::insert`:
an existing binding for the key is overwritten in place, otherwise the
binding is appended. -/
def insertMime (m : List (String × String)) (k v : String) : List (String × String) :=
  if m.any (fun p => p.1 == k) then
    m.map (fun p => if p.1 == k then (k, v) else p)
  else
    m ++ [(k, v)]

/-- The table built by `get_mimetypes` in source order: `image/webp → .webp`,
`image/jpeg → .jpeg`, `image/jpeg → .jpg` (overwrites the previous binding),
`image/png → .png`, `image/svg+xml → .svg`. -/
def get_mimetypes : List (String × String) :=
  insertMime (insertMime (insertMime (insertMime (insertMime []
    "image/webp" ".webp")
    "image/jpeg" ".jpeg")
    "image/jpeg" ".jpg")
    "image/png" ".png")
    "image/svg+xml" ".svg"

/-- Models `mime_types.get(mime_type.as_str())`: exact-string lookup. -/
def extensionFor (mimeType : String) : Option String :=
  (get_mimetypes.find? (fun p => p.1 == mimeType)).map Prod.snd

/-- Models `mime_types.values().collect::<Vec<_>>()` (the recognized
extensions). -/
def mimeTypeExtensions : List String := get_mimetypes.map Prod.snd

/-- Models Rust `str::ends_with` on UTF-8 strings as a character-list
suffix test. -/
def endsWithStr (s pat : String) : Bool := pat.data.isSuffixOf s.data

/-- Model of a parsed `url::Url` at the interface the program uses:
`host_str()` (absent for host-less URLs) and `path_segments()` (`none`
models a cannot-be-a-base URL). -/
structure Url where
  hostStr : Option String
  pathSegments : Option (List String)
deriving DecidableEq, Repr

/-- Mirrors `HarLogEntryRequest`. -/
structure HarLogEntryRequest where
  url : Url
deriving DecidableEq, Repr

/-- Mirrors `HarLogEntryResponseContent`: base64 payload text (defaults to
the empty string when absent) and the declared MIME type. -/
structure HarLogEntryResponseContent where
  text : String
  mime_type : String
deriving DecidableEq, Repr

/-- Mirrors `HarLogEntryResponse`. -/
structure HarLogEntryResponse where
  content : HarLogEntryResponseContent
deriving DecidableEq, Repr

/-- Mirrors `HarLogEntry`. -/
structure HarLogEntry where
  request : HarLogEntryRequest
  response : HarLogEntryResponse
deriving DecidableEq, Repr

/-- The command-line fields that reach the extraction logic.  The
`output_domain` and `output_path` flags carry optional string values; only
their presence is consulted by the directory-composition code. -/
structure Cli where
  output_domain : Option String
  output_path : Option String
  output_path_depth : Int
deriving DecidableEq, Repr

/-- Value of one character in the standard base64 alphabet. -/
def b64Val (c : Char) : Option Nat :=
  if 'A' ≤ c ∧ c ≤ 'Z' then some (c.toNat - 'A'.toNat)
  else if 'a' ≤ c ∧ c ≤ 'z' then some (c.toNat - 'a'.toNat + 26)
  else if '0' ≤ c ∧ c ≤ '9' then some (c.toNat - '0'.toNat + 52)
  else if c = '+' then some 62
  else if c = '/' then some 63
  else none

/-- Block-wise standard base64 decoding with mandatory canonical padding,
modelling `base64::engine::general_purpose::STANDARD.decode`: input length
must be a multiple of four, `=` padding may only close the final block, and
unused trailing bits must be zero. -/
def decodeB64Chars : List Char → Option (List Nat)
  | [] => some []
  | a :: b :: c :: d :: rest =>
    match b64Val a, b64Val b with
    | some va, some vb =>
      if d = '=' then
        if rest ≠ [] then none
        else if c = '=' then
          if vb % 16 = 0 then some [va * 4 + vb / 16] else none
        else
          match b64Val c with
          | some vc =>
            if vc % 4 = 0 then some [va * 4 + vb / 16, vb % 16 * 16 + vc / 4] else none
          | none => none
      else
        match b64Val c, b64Val d with
        | some vc, some vd =>
          match decodeB64Chars rest with
          | some tail => some ((va * 4 + vb / 16) :: (vb % 16 * 16 + vc / 4) :: (vc % 4 * 64 + vd) :: tail)
          | none => none
        | _, _ => none
    | _, _ => none
  | _ => none

/-- Models `Engine::decode(&STANDARD, b64)`. -/
def decodeBase64 (s : String) : Option (List Nat) := decodeB64Chars s.data

/-- Models `result.extend(Path::new(x))` for one URL path segment.  URL path
segments never contain a path separator, so `Path::new(x)` contributes no
component when `x` is empty and the single component `x` otherwise. -/
def pushSegment (buf : List String) (x : String) : List String :=
  if x = "" then buf else buf ++ [x]

/-- Models `PathBuf::from_str(url_host)`: an empty host string yields an
empty relative path, any other host is a single component. -/
def hostComponents (host : String) : List String :=
  if host = "" then [] else [host]

/-- The `let path = ...` directory-composition block of `main` (lines
164-180): relative directory components determined by the two layout flags.
`none` models the flat layout (no subdirectory). -/
def resolveRelDir (c : Cli) (urlHost : String) (urlPath : List String) : Option (List String) :=
  if c.output_domain.isSome && c.output_path.isSome then
    some (urlPath.foldl pushSegment (hostComponents urlHost))
  else if c.output_domain.isSome then
    some (hostComponents urlHost)
  else if c.output_path.isSome then
    some (urlPath.foldl pushSegment [])
  else
    none

/-- The filename-normalization block of `main` (lines 157-163): keep the
final URL segment as is when it already ends with any recognized extension,
otherwise append the extension `ext` found for this entry. -/
def normalizeFilename (urlFilename ext : String) : String :=
  if mimeTypeExtensions.any (fun x => endsWithStr urlFilename x) then urlFilename
  else urlFilename ++ ext

/-- Destination of one extractable entry, relative to the output root. -/
structure ResolvedDestination where
  relativeDir : List String
  filename : String
deriving DecidableEq, Repr

/-- Fatal per-entry failures: `malformedUrl` models the `unwrap` panics on
`host_str()`/`path_segments()`, `invalidEncoding` the `unwrap` panic on
base64 decoding. -/
inductive RunError where
  | malformedUrl
  | invalidEncoding
deriving DecidableEq, Repr

/-- Per-entry destination resolution (lines 153-186): unwrap the host and
path segments (failure is fatal), split off the final segment as the
filename, normalize it, and compose the relative directory. -/
def resolveEntry (c : Cli) (url : Url) (ext : String) : Except RunError ResolvedDestination :=
  match url.hostStr, url.pathSegments with
  | some host, some segments =>
    if segments.isEmpty then .error .malformedUrl
    else
      .ok ⟨(resolveRelDir c host segments.dropLast).getD [],
           normalizeFilename (segments.getLastD "") ext⟩
  | _, _ => .error .malformedUrl

/-- Observable state of a run: the two counters and the files written so
far, as destination/bytes pairs in write order. -/
structure RunState where
  countTotal : Nat
  countExtracted : Nat
  files : List (ResolvedDestination × List Nat)
deriving DecidableEq, Repr

/-- One iteration of the extraction loop (lines 148-199).  `count_total` is
bumped for every entry; an entry whose MIME type is not in the table is
skipped; otherwise `count_extracted` is bumped, the destination resolved
and the payload decoded, each failure aborting the run; on success the
decoded bytes are written to the destination. -/
def processEntry (c : Cli) (st : RunState) (e : HarLogEntry) : RunState × Option RunError :=
  let st1 : RunState := { st with countTotal := st.countTotal + 1 }
  match extensionFor e.response.content.mime_type with
  | none => (st1, none)
  | some ext =>
    let st2 : RunState := { st1 with countExtracted := st1.countExtracted + 1 }
    match resolveEntry c e.request.url ext with
    | .error er => (st2, some er)
    | .ok dest =>
      match decodeBase64 e.response.content.text with
      | none => (st2, some .invalidEncoding)
      | some bytes => ({ st2 with files := st2.files ++ [(dest, bytes)] }, none)

/-- The extraction loop from a given state: entries are processed in order
and the first fatal error aborts the run, preserving the state reached so
far (files already written stay written). -/
def runFrom (c : Cli) (st : RunState) : List HarLogEntry → RunState × Option RunError
  | [] => (st, none)
  | e :: rest =>
    match processEntry c st e with
    | (st', none) => runFrom c st' rest
    | (st', some er) => (st', some er)

/-- The initial tally: nothing processed, nothing written. -/
def initState : RunState := ⟨0, 0, []⟩

/-- The whole extraction loop of `main`. -/
def runExtract (c : Cli) (entries : List HarLogEntry) : RunState × Option RunError :=
  runFrom c initState entries

/-- Outcome of the post-parse portion of `main`: a configuration error
(exit before the loop starts), a fatal error inside the loop (with the
state reached when it struck), or normal completion. -/
inductive MainOutcome where
  | configError
  | fatal (er : RunError) (st : RunState)
  | finished (st : RunState)
deriving DecidableEq, Repr

/-- The post-parse portion of `main` (lines 117-200): the output-settings
validation (`--output_domain is required in this context` exits when
`output_path` is given without `output_domain`), then the extraction loop. -/
def mainRun (c : Cli) (entries : List HarLogEntry) : MainOutcome :=
  if c.output_domain.isNone && c.output_path.isSome then .configError
  else
    match runExtract c entries with
    | (st, none) => .finished st
    | (st, some er) => .fatal er st

/-- Depth tracking for deciding whether a relative component list escapes
its root: `..` at depth zero escapes, `.` is neutral, any other component
descends. -/
def escapesAux : Nat → List String → Bool
  | _, [] => false
  | d, c :: rest =>
    if c = ".." then (if d = 0 then true else escapesAux (d - 1) rest)
    else if c = "." then escapesAux d rest
    else escapesAux (d + 1) rest

/-- Whether a relative component list, resolved against a root directory,
ever climbs above that root. -/
def escapesRoot (components : List String) : Bool := escapesAux 0 components

/-- A command line with the two layout flags set by presence. -/
def cliFlag (domainFlag pathFlag : Bool) : Cli :=
  ⟨if domainFlag then some "d" else none, if pathFlag then some "p" else none, 0⟩

/-- The URL `https://img.example.com/a/b/photo` at the interface the
program consumes. -/
def urlPhoto : Url :=
  ⟨some "img.example.com", some ["a", "b", "photo"]⟩

/-- Whether an entry's declared MIME type is in the content-type table
(the `if let Some(ext) = mime_types.get(..)` test). -/
def isExtractable (e : HarLogEntry) : Bool :=
  (extensionFor e.response.content.mime_type).isSome

/-- A PNG entry for `https://img.example.com/a/b/logo.png` whose payload
decodes to the three bytes of `Man`. -/
def samplePngEntry : HarLogEntry :=
  ⟨⟨⟨some "img.example.com", some ["a", "b", "logo.png"]⟩⟩, ⟨⟨"TWFu", "image/png"⟩⟩⟩

/-- An HTML entry: its MIME type is not in the table, so it is skipped. -/
def sampleTextEntry : HarLogEntry :=
  ⟨⟨⟨some "img.example.com", some ["index.html"]⟩⟩, ⟨⟨"", "text/html"⟩⟩⟩

/-- A PNG entry whose payload text `!` is not valid base64. -/
def sampleBadB64Entry : HarLogEntry :=
  ⟨⟨⟨some "img.example.com", some ["a", "pic"]⟩⟩, ⟨⟨"!", "image/png"⟩⟩⟩

/-- A PNG entry whose URL carries no host. -/
def sampleNoHostEntry : HarLogEntry :=
  ⟨⟨⟨none, some ["pic"]⟩⟩, ⟨⟨"TWFu", "image/png"⟩⟩⟩

/-- A PNG entry with an empty payload text. -/
def sampleEmptyPayloadEntry : HarLogEntry :=
  ⟨⟨⟨some "img.example.com", some ["empty.png"]⟩⟩, ⟨⟨"", "image/png"⟩⟩⟩

/-- A non-extractable entry bumps only the total count. -/
lemma processEntry_skip (c : Cli) (st : RunState) (e : HarLogEntry)
    (h : extensionFor e.response.content.mime_type = none) :
    processEntry c st e = ({ st with countTotal := st.countTotal + 1 }, none) := by
  simp [processEntry, h]

/-- A fully successful extractable entry bumps both counts and appends one
written file. -/
lemma processEntry_extract (c : Cli) (st : RunState) (e : HarLogEntry)
    (ext : String) (d : ResolvedDestination) (bytes : List Nat)
    (hm : extensionFor e.response.content.mime_type = some ext)
    (hr : resolveEntry c e.request.url ext = .ok d)
    (hb : decodeBase64 e.response.content.text = some bytes) :
    processEntry c st e =
      (⟨st.countTotal + 1, st.countExtracted + 1, st.files ++ [(d, bytes)]⟩, none) := by
  simp [processEntry, hm, hr, hb]

/-- An extractable entry whose destination resolution fails aborts the run
after bumping both counts, writing nothing. -/
lemma processEntry_urlError (c : Cli) (st : RunState) (e : HarLogEntry)
    (ext : String) (er : RunError)
    (hm : extensionFor e.response.content.mime_type = some ext)
    (hr : resolveEntry c e.request.url ext = .error er) :
    processEntry c st e = (⟨st.countTotal + 1, st.countExtracted + 1, st.files⟩, some er) := by
  simp [processEntry, hm, hr]

/-- An extractable entry whose payload is not valid base64 aborts the run
after bumping both counts, writing nothing. -/
lemma processEntry_b64Error (c : Cli) (st : RunState) (e : HarLogEntry)
    (ext : String) (d : ResolvedDestination)
    (hm : extensionFor e.response.content.mime_type = some ext)
    (hr : resolveEntry c e.request.url ext = .ok d)
    (hb : decodeBase64 e.response.content.text = none) :
    processEntry c st e =
      (⟨st.countTotal + 1, st.countExtracted + 1, st.files⟩, some .invalidEncoding) := by
  simp [processEntry, hm, hr, hb]

/-- A loop prefix that completes without error continues into the rest of
the entry list from the state it reached. -/
lemma runFrom_append (c : Cli) :
    ∀ (l1 : List HarLogEntry) (st st' : RunState) (l2 : List HarLogEntry),
      runFrom c st l1 = (st', none) → runFrom c st (l1 ++ l2) = runFrom c st' l2 := by
  intro l1
  induction l1 with
  | nil =>
    intro st st' l2 h
    simp [runFrom] at h
    simp [h]
  | cons e rest ih =>
    intro st st' l2 h
    simp only [runFrom] at h
    simp only [List.cons_append, runFrom]
    cases hp : processEntry c st e with
    | mk a b =>
      rw [hp] at h
      cases b with
      | none => exact ih a st' l2 h
      | some er => simp at h

end ExtractHar

/-- C1: for the URL `https://img.example.com/a/b/photo`, whose content type
`image/jpeg` the registry maps to `.jpg`, the destination resolved by the
directory-composition and filename-normalization logic relative to the
output root is `photo.jpg` for policy domain=false/path=false,
`img.example.com/photo.jpg` for domain=true/path=false,
`img.example.com/a/b/photo.jpg` for domain=true/path=true, and
`a/b/photo.jpg` for domain=false/path=true. -/
theorem ExtractHar.C1_path_policy_matrix :
    ExtractHar.extensionFor "image/jpeg" = some ".jpg" ∧
    ExtractHar.resolveEntry (ExtractHar.cliFlag false false) ExtractHar.urlPhoto ".jpg"
      = .ok ⟨[], "photo.jpg"⟩ ∧
    ExtractHar.resolveEntry (ExtractHar.cliFlag true false) ExtractHar.urlPhoto ".jpg"
      = .ok ⟨["img.example.com"], "photo.jpg"⟩ ∧
    ExtractHar.resolveEntry (ExtractHar.cliFlag true true) ExtractHar.urlPhoto ".jpg"
      = .ok ⟨["img.example.com", "a", "b"], "photo.jpg"⟩ ∧
    ExtractHar.resolveEntry (ExtractHar.cliFlag false true) ExtractHar.urlPhoto ".jpg"
      = .ok ⟨["a", "b"], "photo.jpg"⟩ :=
  ⟨rfl, rfl, rfl, rfl, rfl⟩

/-- C2: whenever the `output_path` flag is present and `output_domain` is
not, the run reports a configuration error before the extraction loop, for
every entry list: no extraction state is ever produced. -/
theorem ExtractHar.C2_config_error (c : ExtractHar.Cli)
    (entries : List ExtractHar.HarLogEntry)
    (hd : c.output_domain = none) (hp : c.output_path.isSome = true) :
    ExtractHar.mainRun c entries = .configError := by
  simp [ExtractHar.mainRun, hd, hp]

/-- Witness for C2 at a concrete invocation with a nonempty entry list. -/
theorem ExtractHar.C2_config_error_witness :
    ExtractHar.mainRun ⟨none, some "p", 0⟩ [ExtractHar.samplePngEntry]
      = ExtractHar.MainOutcome.configError :=
  ExtractHar.C2_config_error _ _ rfl rfl

namespace ExtractHar

/-- A loop that completes without error has counted every entry, counted as
extracted exactly the entries whose MIME type is in the table, and written
one file per such entry. -/
lemma runFrom_finished (c : Cli) :
    ∀ (l : List HarLogEntry) (st st' : RunState),
      runFrom c st l = (st', none) →
      st'.countTotal = st.countTotal + l.length ∧
      st'.countExtracted = st.countExtracted + (l.filter isExtractable).length ∧
      st'.files.length = st.files.length + (l.filter isExtractable).length := by
  intro l
  induction l with
  | nil =>
    intro st st' h
    simp [runFrom] at h
    simp [h]
  | cons e rest ih =>
    intro st st' h
    simp only [runFrom] at h
    cases hm : extensionFor e.response.content.mime_type with
    | none =>
      rw [processEntry_skip c st e hm] at h
      obtain ⟨h1, h2, h3⟩ := ih _ st' h
      have hf : isExtractable e = false := by simp [isExtractable, hm]
      have hfil : (List.filter isExtractable (e :: rest)).length
          = (List.filter isExtractable rest).length := by
        simp [List.filter_cons, hf]
      dsimp only at h1 h2 h3
      refine ⟨?_, ?_, ?_⟩ <;> simp only [List.length_cons, hfil] <;> omega
    | some ext =>
      cases hr : resolveEntry c e.request.url ext with
      | error er =>
        rw [processEntry_urlError c st e ext er hm hr] at h
        simp at h
      | ok d =>
        cases hb : decodeBase64 e.response.content.text with
        | none =>
          rw [processEntry_b64Error c st e ext d hm hr hb] at h
          simp at h
        | some bytes =>
          rw [processEntry_extract c st e ext d bytes hm hr hb] at h
          obtain ⟨h1, h2, h3⟩ := ih _ st' h
          have ht : isExtractable e = true := by simp [isExtractable, hm]
          have hfil : (List.filter isExtractable (e :: rest)).length
              = (List.filter isExtractable rest).length + 1 := by
            simp [List.filter_cons, ht]
          dsimp only at h1 h2 h3
          simp only [List.length_append, List.length_cons, List.length_nil] at h3
          refine ⟨?_, ?_, ?_⟩ <;> simp only [List.length_cons, hfil] <;> omega

end ExtractHar

/-- C3: at the end of a completed run the tally satisfies extracted ≤ total,
total is the number of entries, extracted is the number of entries whose
content-type string is a key of the registry, and exactly one file was
written per extracted entry (skipped entries produce no file and no
error). -/
theorem ExtractHar.C3_tally (c : ExtractHar.Cli)
    (entries : List ExtractHar.HarLogEntry) (st : ExtractHar.RunState)
    (h : ExtractHar.mainRun c entries = .finished st) :
    st.countExtracted ≤ st.countTotal ∧
    st.countTotal = entries.length ∧
    st.countExtracted = (entries.filter ExtractHar.isExtractable).length ∧
    st.files.length = st.countExtracted := by
  unfold ExtractHar.mainRun at h
  split at h
  · simp at h
  · cases hr : ExtractHar.runExtract c entries with
    | mk a b =>
      rw [hr] at h
      cases b with
      | none =>
        simp only [MainOutcome.finished.injEq] at h
        unfold ExtractHar.runExtract at hr
        obtain ⟨h1, h2, h3⟩ := ExtractHar.runFrom_finished c entries ExtractHar.initState a hr
        have hle := List.length_filter_le ExtractHar.isExtractable entries
        simp [ExtractHar.initState] at h1 h2 h3
        subst h
        refine ⟨by omega, by omega, by omega, by omega⟩
      | some er => simp at h

/-- Witness for C3 on a two-entry archive where one entry is extractable
and the other is skipped. -/
theorem ExtractHar.C3_tally_witness :
    (⟨2, 1, [(⟨["img.example.com"], "logo.png"⟩, [77, 97, 110])]⟩ : ExtractHar.RunState).countExtracted
        ≤ (⟨2, 1, [(⟨["img.example.com"], "logo.png"⟩, [77, 97, 110])]⟩ : ExtractHar.RunState).countTotal ∧
    (⟨2, 1, [(⟨["img.example.com"], "logo.png"⟩, [77, 97, 110])]⟩ : ExtractHar.RunState).countTotal
        = [ExtractHar.samplePngEntry, ExtractHar.sampleTextEntry].length ∧
    (⟨2, 1, [(⟨["img.example.com"], "logo.png"⟩, [77, 97, 110])]⟩ : ExtractHar.RunState).countExtracted
        = ([ExtractHar.samplePngEntry, ExtractHar.sampleTextEntry].filter ExtractHar.isExtractable).length ∧
    (⟨2, 1, [(⟨["img.example.com"], "logo.png"⟩, [77, 97, 110])]⟩ : ExtractHar.RunState).files.length
        = (⟨2, 1, [(⟨["img.example.com"], "logo.png"⟩, [77, 97, 110])]⟩ : ExtractHar.RunState).countExtracted :=
  ExtractHar.C3_tally (ExtractHar.cliFlag true false)
    [ExtractHar.samplePngEntry, ExtractHar.sampleTextEntry] _ (by rfl)

namespace ExtractHar

/-- Directory composition depends on the command line only through the
presence of the two layout flags. -/
lemma resolveRelDir_congrCli (c c' : Cli) (hd : c'.output_domain = c.output_domain)
    (hp : c'.output_path = c.output_path) :
    resolveRelDir c' = resolveRelDir c := by
  funext host p
  simp [resolveRelDir, hd, hp]

/-- Destination resolution depends on the command line only through the
presence of the two layout flags. -/
lemma resolveEntry_congrCli (c c' : Cli) (hd : c'.output_domain = c.output_domain)
    (hp : c'.output_path = c.output_path) :
    resolveEntry c' = resolveEntry c := by
  funext url ext
  cases url with
  | mk oh op =>
    cases oh <;> cases op <;>
      simp [resolveEntry, resolveRelDir_congrCli c c' hd hp]

/-- Entry processing depends on the command line only through the presence
of the two layout flags. -/
lemma processEntry_congrCli (c c' : Cli) (hd : c'.output_domain = c.output_domain)
    (hp : c'.output_path = c.output_path) :
    processEntry c' = processEntry c := by
  funext st e
  simp [processEntry, resolveEntry_congrCli c c' hd hp]

/-- The extraction loop depends on the command line only through entry
processing. -/
lemma runFrom_congrCli (c c' : Cli) (h : processEntry c' = processEntry c) :
    ∀ (l : List HarLogEntry) (st : RunState), runFrom c' st l = runFrom c st l := by
  intro l
  induction l with
  | nil => intro st; rfl
  | cons e rest ih =>
    intro st
    simp only [runFrom, h]
    cases hp : processEntry c st e with
    | mk a b =>
      cases b with
      | none => exact ih a
      | some er => rfl

/-- The whole post-parse run depends on the command line only through the
presence of the two layout flags. -/
lemma mainRun_congrCli (c c' : Cli) (hd : c'.output_domain = c.output_domain)
    (hp : c'.output_path = c.output_path) :
    mainRun c' = mainRun c := by
  funext entries
  have hpe : processEntry c' = processEntry c := processEntry_congrCli c c' hd hp
  simp only [mainRun, runExtract, hd, hp, runFrom_congrCli c c' hpe]

end ExtractHar

/-- C5: for every entry, policy and entry list, both the per-entry resolved
destination and the outcome of the whole run are identical for all values
of output_path_depth: the depth field never influences directory
composition or any other observable behaviour. -/
theorem ExtractHar.C5_depth_unused (c : ExtractHar.Cli) (d1 d2 : Int)
    (entries : List ExtractHar.HarLogEntry) :
    (∀ (url : ExtractHar.Url) (ext : String),
        ExtractHar.resolveEntry { c with output_path_depth := d1 } url ext
          = ExtractHar.resolveEntry { c with output_path_depth := d2 } url ext) ∧
    ExtractHar.mainRun { c with output_path_depth := d1 } entries
      = ExtractHar.mainRun { c with output_path_depth := d2 } entries := by
  constructor
  · intro url ext
    rw [ExtractHar.resolveEntry_congrCli c { c with output_path_depth := d1 } rfl rfl,
        ExtractHar.resolveEntry_congrCli c { c with output_path_depth := d2 } rfl rfl]
  · rw [ExtractHar.mainRun_congrCli c { c with output_path_depth := d1 } rfl rfl,
        ExtractHar.mainRun_congrCli c { c with output_path_depth := d2 } rfl rfl]

namespace ExtractHar

/-- Resolution of an entry whose URL has a host and path segments
`dirs ++ [f]`: the directory comes from `dirs`, the filename from
normalizing `f`. -/
lemma resolveEntry_concat (c : Cli) (host : String) (dirs : List String) (f ext : String) :
    resolveEntry c ⟨some host, some (dirs ++ [f])⟩ ext
      = .ok ⟨(resolveRelDir c host dirs).getD [], normalizeFilename f ext⟩ := by
  have hne : (dirs ++ [f]).isEmpty = false := by simp
  simp [resolveEntry, hne, List.dropLast_concat, List.getLastD_concat]

end ExtractHar

/-- C4: for every extractable entry the written filename is the final URL
path segment unchanged when that segment already ends with any extension of
the registry (not necessarily the one matching the entry's own content
type), and otherwise the final segment with the entry's own extension
appended; in particular a URL ending in `logo.png` with content type
`image/png` keeps the filename `logo.png`. -/
theorem ExtractHar.C4_filename_normalization (c : ExtractHar.Cli) (host : String)
    (dirs : List String) (f mt ext : String)
    (h : ExtractHar.extensionFor mt = some ext) :
    (∃ d : ExtractHar.ResolvedDestination,
        ExtractHar.resolveEntry c ⟨some host, some (dirs ++ [f])⟩ ext = .ok d ∧
        ((∃ x ∈ ExtractHar.mimeTypeExtensions, ExtractHar.endsWithStr f x = true) →
          d.filename = f) ∧
        ((∀ x ∈ ExtractHar.mimeTypeExtensions, ExtractHar.endsWithStr f x = false) →
          d.filename = f ++ ext)) ∧
    ExtractHar.extensionFor "image/png" = some ".png" ∧
    ExtractHar.resolveEntry c ⟨some host, some (dirs ++ ["logo.png"])⟩ ".png"
      = .ok ⟨(ExtractHar.resolveRelDir c host dirs).getD [], "logo.png"⟩ := by
  refine ⟨⟨⟨(ExtractHar.resolveRelDir c host dirs).getD [], ExtractHar.normalizeFilename f ext⟩,
      ExtractHar.resolveEntry_concat c host dirs f ext, ?_, ?_⟩, rfl, ?_⟩
  · intro hx
    have ha : ExtractHar.mimeTypeExtensions.any (fun x => ExtractHar.endsWithStr f x) = true := by
      rw [List.any_eq_true]
      obtain ⟨x, hxm, hxe⟩ := hx
      exact ⟨x, hxm, hxe⟩
    simp [ExtractHar.normalizeFilename, ha]
  · intro hx
    have ha : ExtractHar.mimeTypeExtensions.any (fun x => ExtractHar.endsWithStr f x) = false := by
      rw [List.any_eq_false]
      intro x hxm
      simp [hx x hxm]
    simp [ExtractHar.normalizeFilename, ha]
  · rw [ExtractHar.resolveEntry_concat]
    rfl

/-- Witness for C4 at a concrete entry: `logo.png` of type `image/png`
keeps its filename. -/
theorem ExtractHar.C4_filename_normalization_witness :
    ExtractHar.resolveEntry (ExtractHar.cliFlag false false)
        ⟨some "example.com", some ([] ++ ["logo.png"])⟩ ".png"
      = .ok ⟨(ExtractHar.resolveRelDir (ExtractHar.cliFlag false false) "example.com" []).getD [],
             "logo.png"⟩ :=
  (ExtractHar.C4_filename_normalization (ExtractHar.cliFlag false false) "example.com" []
    "logo.png" "image/png" ".png" rfl).2.2

namespace ExtractHar

/-- A URL without host, or without path segments, or with an empty segment
list, fails destination resolution with `malformedUrl`. -/
lemma resolveEntry_malformed (c : Cli) (url : Url) (ext : String)
    (h : url.hostStr = none ∨ url.pathSegments = none ∨ url.pathSegments = some []) :
    resolveEntry c url ext = .error .malformedUrl := by
  obtain ⟨oh, op⟩ := url
  dsimp only at h
  rcases h with h | h | h
  · subst h; cases op <;> rfl
  · subst h; cases oh <;> rfl
  · subst h; cases oh <;> rfl

end ExtractHar

/-- C7: when the entries are a prefix that processes successfully, followed
by an extractable entry whose payload is not valid base64 (and whose URL
resolves), followed by anything, the run aborts at that entry with
`invalidEncoding`: the state at abort carries exactly the files written for
the earlier entries — no file for the failing entry, none for any later
entry, and no rollback of earlier files. -/
theorem ExtractHar.C7_invalid_base64_aborts (c : ExtractHar.Cli)
    (pre post : List ExtractHar.HarLogEntry) (bad : ExtractHar.HarLogEntry)
    (ext : String) (st : ExtractHar.RunState) (d : ExtractHar.ResolvedDestination)
    (hpre : ExtractHar.runFrom c ExtractHar.initState pre = (st, none))
    (hmime : ExtractHar.extensionFor bad.response.content.mime_type = some ext)
    (hurl : ExtractHar.resolveEntry c bad.request.url ext = .ok d)
    (hb64 : ExtractHar.decodeBase64 bad.response.content.text = none) :
    ExtractHar.runExtract c (pre ++ bad :: post)
      = (⟨st.countTotal + 1, st.countExtracted + 1, st.files⟩, some .invalidEncoding) := by
  unfold ExtractHar.runExtract
  rw [ExtractHar.runFrom_append c pre ExtractHar.initState st (bad :: post) hpre]
  simp [ExtractHar.runFrom,
    ExtractHar.processEntry_b64Error c st bad ext d hmime hurl hb64]

/-- Witness for C7: a valid PNG entry, then an entry with payload `!`, then
another valid entry; only the first entry's file is on disk at abort. -/
theorem ExtractHar.C7_invalid_base64_aborts_witness :
    ExtractHar.runExtract (ExtractHar.cliFlag true false)
        ([ExtractHar.samplePngEntry] ++ ExtractHar.sampleBadB64Entry ::
          [ExtractHar.sampleEmptyPayloadEntry])
      = (⟨2, 2, [(⟨["img.example.com"], "logo.png"⟩, [77, 97, 110])]⟩,
         some .invalidEncoding) :=
  ExtractHar.C7_invalid_base64_aborts (ExtractHar.cliFlag true false)
    [ExtractHar.samplePngEntry] [ExtractHar.sampleEmptyPayloadEntry]
    ExtractHar.sampleBadB64Entry ".png"
    ⟨1, 1, [(⟨["img.example.com"], "logo.png"⟩, [77, 97, 110])]⟩
    ⟨["img.example.com"], "pic.png"⟩ (by rfl) rfl rfl rfl

/-- C8: when the entries are a prefix that processes successfully, followed
by an extractable entry whose URL has no host, no path-segment view, or an
empty segment list, the run aborts at that entry with `malformedUrl`: the
entry is not skipped and no later entry is processed. -/
theorem ExtractHar.C8_malformed_url_fatal (c : ExtractHar.Cli)
    (pre post : List ExtractHar.HarLogEntry) (bad : ExtractHar.HarLogEntry)
    (ext : String) (st : ExtractHar.RunState)
    (hpre : ExtractHar.runFrom c ExtractHar.initState pre = (st, none))
    (hmime : ExtractHar.extensionFor bad.response.content.mime_type = some ext)
    (hurl : bad.request.url.hostStr = none ∨ bad.request.url.pathSegments = none ∨
      bad.request.url.pathSegments = some []) :
    ExtractHar.runExtract c (pre ++ bad :: post)
      = (⟨st.countTotal + 1, st.countExtracted + 1, st.files⟩, some .malformedUrl) := by
  have hr := ExtractHar.resolveEntry_malformed c bad.request.url ext hurl
  unfold ExtractHar.runExtract
  rw [ExtractHar.runFrom_append c pre ExtractHar.initState st (bad :: post) hpre]
  simp [ExtractHar.runFrom,
    ExtractHar.processEntry_urlError c st bad ext .malformedUrl hmime hr]

/-- Witness for C8: a valid PNG entry, then a host-less PNG entry, then
another valid entry; the run aborts with `malformedUrl` after the first
entry's file was written. -/
theorem ExtractHar.C8_malformed_url_fatal_witness :
    ExtractHar.runExtract (ExtractHar.cliFlag true false)
        ([ExtractHar.samplePngEntry] ++ ExtractHar.sampleNoHostEntry ::
          [ExtractHar.sampleEmptyPayloadEntry])
      = (⟨2, 2, [(⟨["img.example.com"], "logo.png"⟩, [77, 97, 110])]⟩,
         some .malformedUrl) :=
  ExtractHar.C8_malformed_url_fatal (ExtractHar.cliFlag true false)
    [ExtractHar.samplePngEntry] [ExtractHar.sampleEmptyPayloadEntry]
    ExtractHar.sampleNoHostEntry ".png"
    ⟨1, 1, [(⟨["img.example.com"], "logo.png"⟩, [77, 97, 110])]⟩
    (by rfl) rfl (Or.inl rfl)

/-- C10: an extractable entry with an empty payload text decodes to zero
bytes and a zero-length file is recorded at its resolved destination; the
entry is counted as extracted and causes no error. -/
theorem ExtractHar.C10_empty_payload (c : ExtractHar.Cli) (st : ExtractHar.RunState)
    (e : ExtractHar.HarLogEntry) (ext : String) (d : ExtractHar.ResolvedDestination)
    (hmime : ExtractHar.extensionFor e.response.content.mime_type = some ext)
    (hurl : ExtractHar.resolveEntry c e.request.url ext = .ok d)
    (htext : e.response.content.text = "") :
    ExtractHar.decodeBase64 e.response.content.text = some [] ∧
    ExtractHar.processEntry c st e
      = (⟨st.countTotal + 1, st.countExtracted + 1, st.files ++ [(d, [])]⟩, none) := by
  have hb : ExtractHar.decodeBase64 e.response.content.text = some [] := by
    rw [htext]; rfl
  exact ⟨hb, ExtractHar.processEntry_extract c st e ext d [] hmime hurl hb⟩

/-- Witness for C10 at a concrete empty-payload PNG entry. -/
theorem ExtractHar.C10_empty_payload_witness :
    ExtractHar.decodeBase64 ExtractHar.sampleEmptyPayloadEntry.response.content.text = some [] ∧
    ExtractHar.processEntry (ExtractHar.cliFlag true false) ExtractHar.initState
        ExtractHar.sampleEmptyPayloadEntry
      = (⟨1, 1, [(⟨["img.example.com"], "empty.png"⟩, [])]⟩, none) :=
  ExtractHar.C10_empty_payload (ExtractHar.cliFlag true false) ExtractHar.initState
    ExtractHar.sampleEmptyPayloadEntry ".png" ⟨["img.example.com"], "empty.png"⟩
    rfl rfl rfl

namespace ExtractHar

/-- Every component of the folded path comes from the initial buffer or is
a nonempty segment of the pushed list (empty segments contribute nothing). -/
lemma mem_foldl_pushSegment :
    ∀ (l buf : List String) (s : String),
      s ∈ l.foldl pushSegment buf → s ∈ buf ∨ (s ∈ l ∧ s ≠ "") := by
  intro l
  induction l with
  | nil =>
    intro buf s h
    simp only [List.foldl_nil] at h
    exact Or.inl h
  | cons x xs ih =>
    intro buf s h
    simp only [List.foldl_cons] at h
    rcases ih (pushSegment buf x) s h with h1 | h2
    · by_cases hx0 : x = ""
      · rw [pushSegment, if_pos hx0] at h1
        exact Or.inl h1
      · rw [pushSegment, if_neg hx0] at h1
        rcases List.mem_append.mp h1 with hb | hx
        · exact Or.inl hb
        · have hsx : s = x := by simpa using hx
          subst hsx
          exact Or.inr ⟨List.mem_cons_self _ _, hx0⟩
    · exact Or.inr ⟨List.mem_cons_of_mem _ h2.1, h2.2⟩

/-- Membership in the host component list forces a nonempty host. -/
lemma hostComponents_mem (host s : String) (h : s ∈ hostComponents host) :
    s = host ∧ host ≠ "" := by
  unfold hostComponents at h
  by_cases h0 : host = ""
  · rw [if_pos h0] at h
    simp at h
  · rw [if_neg h0] at h
    simp at h
    exact ⟨h, h0⟩

/-- Every component of a resolved relative directory is the host or a
nonempty URL directory segment. -/
lemma relDir_mem (c : Cli) (host : String) (urlPath : List String) (s : String)
    (h : s ∈ (resolveRelDir c host urlPath).getD []) :
    s ∈ hostComponents host ∨ (s ∈ urlPath ∧ s ≠ "") := by
  unfold resolveRelDir at h
  split_ifs at h
  · simp only [Option.getD_some] at h
    exact mem_foldl_pushSegment urlPath (hostComponents host) s h
  · simp only [Option.getD_some] at h
    exact Or.inl h
  · simp only [Option.getD_some] at h
    rcases mem_foldl_pushSegment urlPath [] s h with h1 | h2
    · simp at h1
    · exact Or.inr h2
  · simp at h

/-- A component list without a parent-directory component never escapes its
root. -/
lemma not_escapes_of_no_dotdot :
    ∀ (comps : List String), ".." ∉ comps → ∀ d, escapesAux d comps = false := by
  intro comps
  induction comps with
  | nil =>
    intro _ d
    rfl
  | cons x xs ih =>
    intro h d
    have hx : ¬(x = "..") := fun hh => h (by rw [hh]; exact List.mem_cons_self _ _)
    have hxs : ".." ∉ xs := fun hh => h (List.mem_cons_of_mem _ hh)
    simp only [escapesAux]
    rw [if_neg hx]
    by_cases hd : x = "."
    · rw [if_pos hd]
      exact ih hxs d
    · rw [if_neg hd]
      exact ih hxs (d + 1)

/-- A successful registry lookup returns one of the registered extensions. -/
lemma extensionFor_mem (mt ext : String) (h : extensionFor mt = some ext) :
    ext ∈ mimeTypeExtensions := by
  unfold extensionFor at h
  cases hf : List.find? (fun p => p.1 == mt) get_mimetypes with
  | none =>
    rw [hf] at h
    simp at h
  | some pr =>
    rw [hf, Option.map_some'] at h
    have hm : pr ∈ get_mimetypes := List.mem_of_find?_eq_some hf
    have hmm : pr.2 ∈ mimeTypeExtensions := List.mem_map_of_mem Prod.snd hm
    have he : pr.2 = ext := by injection h
    rwa [he] at hmm

/-- No registered extension is the empty string. -/
lemma mimeExt_data_ne_nil : ∀ x ∈ mimeTypeExtensions, x.data ≠ [] := by decide

/-- Resolution of an entry whose URL has a host and a nonempty segment
list, in terms of the segment list's parts. -/
lemma resolveEntry_some (c : Cli) (host : String) (segs : List String) (ext : String)
    (hne : segs.isEmpty = false) :
    resolveEntry c ⟨some host, some segs⟩ ext
      = .ok ⟨(resolveRelDir c host segs.dropLast).getD [],
             normalizeFilename (segs.getLastD "") ext⟩ := by
  simp [resolveEntry, hne]

end ExtractHar

/-- C6 counterexample: with domain and path subfolders enabled, a URL whose
directory segments are `..`, `..` (which the claim itself says the parser
may yield) produces a resolved destination whose relative directory climbs
above the output root, refuting the no-parent-escape invariant as stated. -/
theorem ExtractHar.C6_counterexample :
    ExtractHar.resolveEntry (ExtractHar.cliFlag true true)
        ⟨some "example.com", some ["..", "..", "photo"]⟩ ".jpg"
      = .ok ⟨["example.com", "..", ".."], "photo.jpg"⟩ ∧
    ExtractHar.escapesRoot ["example.com", "..", ".."] = true :=
  ⟨rfl, rfl⟩

/-- C6 amended: every resolved destination of an extractable entry has no
empty directory component and a nonempty filename; and provided neither the
host nor any URL directory segment equals `..`, the relative directory
never escapes the output root.  (Empty URL segments are dropped during
directory composition rather than kept as empty components.) -/
theorem ExtractHar.C6_destination_amended (c : ExtractHar.Cli) (host : String)
    (segs : List String) (mt ext : String) (d : ExtractHar.ResolvedDestination)
    (hext : ExtractHar.extensionFor mt = some ext)
    (h : ExtractHar.resolveEntry c ⟨some host, some segs⟩ ext = .ok d) :
    (∀ s ∈ d.relativeDir, s ≠ "") ∧
    d.filename ≠ "" ∧
    (host ≠ ".." → (∀ s ∈ segs.dropLast, s ≠ "..") →
      ExtractHar.escapesRoot d.relativeDir = false) := by
  by_cases hemp : segs.isEmpty
  · exfalso
    have hbad : ExtractHar.resolveEntry c ⟨some host, some segs⟩ ext
        = .error .malformedUrl := by
      simp [ExtractHar.resolveEntry, hemp]
    rw [hbad] at h
    exact Except.noConfusion h
  · have hemp' : segs.isEmpty = false := by simpa using hemp
    rw [ExtractHar.resolveEntry_some c host segs ext hemp'] at h
    have hd : d = ⟨(ExtractHar.resolveRelDir c host segs.dropLast).getD [],
        ExtractHar.normalizeFilename (segs.getLastD "") ext⟩ := by
      injection h with h
      exact h.symm
    subst hd
    refine ⟨?_, ?_, ?_⟩
    · intro s hs
      rcases ExtractHar.relDir_mem c host segs.dropLast s hs with h1 | h2
      · obtain ⟨rfl, hh⟩ := ExtractHar.hostComponents_mem host s h1
        exact hh
      · exact h2.2
    · dsimp only
      unfold ExtractHar.normalizeFilename
      by_cases ha : ExtractHar.mimeTypeExtensions.any
          (fun x => ExtractHar.endsWithStr (segs.getLastD "") x) = true
      · rw [if_pos ha]
        intro h0
        rw [List.any_eq_true] at ha
        obtain ⟨x, hxm, hxe⟩ := ha
        rw [h0] at hxe
        unfold ExtractHar.endsWithStr at hxe
        rw [List.isSuffixOf_iff_suffix] at hxe
        have hx0 : x.data = [] := List.suffix_nil.mp hxe
        exact ExtractHar.mimeExt_data_ne_nil x hxm hx0
      · rw [if_neg ha]
        intro h0
        have h0' := congrArg String.data h0
        rw [String.data_append] at h0'
        have hx0 : ext.data = [] := (List.append_eq_nil.mp (by simpa using h0')).2
        exact ExtractHar.mimeExt_data_ne_nil ext (ExtractHar.extensionFor_mem mt ext hext) hx0
    · intro hh hseg
      dsimp only
      have hnm : ".." ∉ (ExtractHar.resolveRelDir c host segs.dropLast).getD [] := by
        intro hmem
        rcases ExtractHar.relDir_mem c host segs.dropLast ".." hmem with h1 | h2
        · obtain ⟨he, _⟩ := ExtractHar.hostComponents_mem host ".." h1
          exact hh he.symm
        · exact hseg ".." h2.1 rfl
      exact ExtractHar.not_escapes_of_no_dotdot _ hnm 0

/-- Witness for the amended C6 at a concrete entry whose URL has an empty
directory segment: the destination has no empty component, a nonempty
filename, and does not escape the root. -/
theorem ExtractHar.C6_destination_amended_witness :
    (∀ s ∈ (⟨["example.com", "a"], "photo.jpg"⟩ : ExtractHar.ResolvedDestination).relativeDir,
        s ≠ "") ∧
    (⟨["example.com", "a"], "photo.jpg"⟩ : ExtractHar.ResolvedDestination).filename ≠ "" ∧
    ("example.com" ≠ ".." → (∀ s ∈ (["a", "", "photo"] : List String).dropLast, s ≠ "..") →
      ExtractHar.escapesRoot
        (⟨["example.com", "a"], "photo.jpg"⟩ : ExtractHar.ResolvedDestination).relativeDir
        = false) :=
  ExtractHar.C6_destination_amended (ExtractHar.cliFlag true true) "example.com"
    ["a", "", "photo"] "image/jpeg" ".jpg" ⟨["example.com", "a"], "photo.jpg"⟩ rfl (by rfl)

namespace ExtractHar

/-- A filename ending in `.jpeg` ends with none of the registered
extensions (the `.jpeg` binding was overwritten by `.jpg`). -/
lemma no_ext_suffix_of_jpeg (f : String) (h : endsWithStr f ".jpeg" = true) :
    mimeTypeExtensions.any (fun x => endsWithStr f x) = false := by
  unfold endsWithStr at h
  rw [List.isSuffixOf_iff_suffix] at h
  rw [List.any_eq_false]
  intro x hxm hx
  unfold endsWithStr at hx
  rw [List.isSuffixOf_iff_suffix] at hx
  have hdis := List.suffix_or_suffix_of_suffix hx h
  have hxm' : x ∈ ([".webp", ".jpg", ".png", ".svg"] : List String) := hxm
  have hx4 : x = ".webp" ∨ x = ".jpg" ∨ x = ".png" ∨ x = ".svg" := by
    simpa using hxm'
  rcases hx4 with rfl | rfl | rfl | rfl <;> rcases hdis with h1 | h1 <;> revert h1 <;> decide

/-- Appending `.jpg` to a string ending in `.jpeg` yields a string ending
in `.jpeg.jpg`. -/
lemma endsWith_append_jpeg (f : String) (h : endsWithStr f ".jpeg" = true) :
    endsWithStr (f ++ ".jpg") ".jpeg.jpg" = true := by
  unfold endsWithStr at h ⊢
  rw [List.isSuffixOf_iff_suffix] at h ⊢
  obtain ⟨t, ht⟩ := h
  refine ⟨t, ?_⟩
  rw [String.data_append, ← ht, List.append_assoc]
  rfl

end ExtractHar

/-- C9: the registry maps `image/jpeg` to `.jpg` (the earlier `.jpeg`
insertion is overwritten) and `.jpeg` is not a recognized extension, so an
extractable `image/jpeg` entry whose URL filename ends in `.jpeg` fails the
already-has-extension check and is written with filename ending in
`.jpeg.jpg`. -/
theorem ExtractHar.C9_jpeg_double_extension (c : ExtractHar.Cli) (host : String)
    (dirs : List String) (f : String)
    (h : ExtractHar.endsWithStr f ".jpeg" = true) :
    ExtractHar.extensionFor "image/jpeg" = some ".jpg" ∧
    ".jpeg" ∉ ExtractHar.mimeTypeExtensions ∧
    (∃ d : ExtractHar.ResolvedDestination,
      ExtractHar.resolveEntry c ⟨some host, some (dirs ++ [f])⟩ ".jpg" = .ok d ∧
      d.filename = f ++ ".jpg" ∧
      ExtractHar.endsWithStr d.filename ".jpeg.jpg" = true) := by
  have hany := ExtractHar.no_ext_suffix_of_jpeg f h
  have hfn : ExtractHar.normalizeFilename f ".jpg" = f ++ ".jpg" := by
    simp [ExtractHar.normalizeFilename, hany]
  refine ⟨rfl, by decide,
    ⟨(ExtractHar.resolveRelDir c host dirs).getD [], ExtractHar.normalizeFilename f ".jpg"⟩,
    ExtractHar.resolveEntry_concat c host dirs f ".jpg", ?_, ?_⟩
  · exact hfn
  · dsimp only
    rw [hfn]
    exact ExtractHar.endsWith_append_jpeg f h

/-- Witness for C9 at the concrete filename `pic.jpeg`. -/
theorem ExtractHar.C9_jpeg_double_extension_witness :
    ExtractHar.extensionFor "image/jpeg" = some ".jpg" ∧
    ".jpeg" ∉ ExtractHar.mimeTypeExtensions ∧
    (∃ d : ExtractHar.ResolvedDestination,
      ExtractHar.resolveEntry (ExtractHar.cliFlag false false)
          ⟨some "example.com", some ([] ++ ["pic.jpeg"])⟩ ".jpg" = .ok d ∧
      d.filename = "pic.jpeg" ++ ".jpg" ∧
      ExtractHar.endsWithStr d.filename ".jpeg.jpg" = true) :=
  ExtractHar.C9_jpeg_double_extension (ExtractHar.cliFlag false false) "example.com" []
    "pic.jpeg" (by decide)
